import Mathlib

/-!
Verification development for the video-editor repository.

Shallow embedding of the unified-timeline playback engine and the export
pipeline. Durations and playback times are embedded as rationals, byte
buffers as lists of naturals, and the transcode engine as an explicit
behavior record plus an operation trace.
-/

/-- Embeds the `VideoClip` interface of `types/editor.ts`:
`{ id, name, src, duration, thumbnail, isDummy }`. -/
structure Clip where
  id : String
  name : String
  src : String
  duration : ℚ
  thumbnail : String
  isDummy : Bool
deriving DecidableEq, Repr

/-- Convenience constructor for concrete clips in examples: the label is used
for the identifying fields. -/
def mkClip (label : String) (d : ℚ) : Clip :=
  { id := label, name := label, src := label, duration := d,
    thumbnail := "", isDummy := false }

/-- Embeds the `TimelineSlot` interface of `types/editor.ts`:
`{ index, alignsWithPosition, clip }`. -/
structure TimelineSlot where
  index : Nat
  alignsWithPosition : Nat
  clip : Option Clip
deriving DecidableEq, Repr

/-- Embeds `totalDuration` of `useVideoEditor.ts` (and
`playbackTotalDuration` of `page.tsx`):
`clips.reduce((sum, clip) => sum + clip.duration, 0)`. -/
def totalDuration (clips : List Clip) : ℚ :=
  clips.foldl (fun sum clip => sum + clip.duration) 0

/-- The scanning loop of `getClipAtTime` (`DualTimeline.tsx`): walks the
durations carrying the loop variables `i` and `accumulated`; on the first
clip with `globalTime < clipEnd` it returns `(i, globalTime - accumulated)`,
otherwise it falls through (`none`). -/
def clipAtTimeAux : List ℚ → ℚ → Nat → ℚ → Option (Nat × ℚ)
  | [], _, _, _ => none
  | d :: rest, t, i, acc =>
    if t < acc + d then some (i, t - acc)
    else clipAtTimeAux rest t (i + 1) (acc + d)

/-- Shifted form of the scan loop used in proofs: the accumulated offset is
subtracted from the time instead of being carried along. -/
def clipAtTimeLoop (durs : List ℚ) (t : ℚ) : Option (Nat × ℚ) :=
  match durs with
  | [] => none
  | d :: rest =>
    if t < d then some (0, t)
    else (clipAtTimeLoop rest (t - d)).map (fun p => (p.1 + 1, p.2))

/-- Embeds `getClipAtTime` of `DualTimeline.tsx` (Preview component): the
scan loop starting at index 0 and accumulated 0, then the past-the-end
clamp to the last clip at its full duration, and the `(0, 0)` result for an
empty list. -/
def getClipAtTime (clips : List Clip) (globalTime : ℚ) : Nat × ℚ :=
  match clipAtTimeAux (clips.map (fun c => c.duration)) globalTime 0 0 with
  | some r => r
  | none =>
    match clips.getLast? with
    | some c => (clips.length - 1, c.duration)
    | none => (0, 0)

/-- Embeds `getClipStartTime` of `DualTimeline.tsx` and `page.tsx`: the loop
`for (i = 0; i < clipIndex && i < clips.length; i++) startTime += duration`,
so it sums the durations of the first `min clipIndex clips.length` clips and
returns a plain number for every index. -/
def getClipStartTime : List Clip → Nat → ℚ
  | _, 0 => 0
  | [], _ + 1 => 0
  | c :: rest, i + 1 => c.duration + getClipStartTime rest i

/-- Modelled from the spec (section 4.1, for comparison with the code):
`startTime(seq, index)` returns the sum of durations before `index` and
fails with `IndexOutOfRange` when `index ≥ length`. -/
def startTimeSpec (clips : List Clip) (index : Nat) : Except String ℚ :=
  if index < clips.length then
    Except.ok (((clips.take index).map (fun c => c.duration)).sum)
  else
    Except.error "IndexOutOfRange"

-- Basic lemmas about the timeline embedding.

theorem totalDuration_eq_sum (clips : List Clip) :
    totalDuration clips = (clips.map (fun c => c.duration)).sum := by
  have h : ∀ (l : List Clip) (a : ℚ),
      l.foldl (fun sum clip => sum + clip.duration) a
        = a + (l.map (fun c => c.duration)).sum := by
    intro l
    induction l with
    | nil => intro a; simp
    | cons c rest ih =>
      intro a
      simp [List.foldl_cons, ih, add_assoc]
  simpa using h clips 0

theorem getClipStartTime_eq_sum_take (clips : List Clip) (i : Nat) :
    getClipStartTime clips i = ((clips.take i).map (fun c => c.duration)).sum := by
  induction clips generalizing i with
  | nil => cases i <;> simp [getClipStartTime]
  | cons c rest ih =>
    cases i with
    | zero => simp [getClipStartTime]
    | succ j => simp [getClipStartTime, ih]

theorem getClipStartTime_of_ge_length (clips : List Clip) (i : Nat)
    (h : clips.length ≤ i) :
    getClipStartTime clips i = totalDuration clips := by
  rw [getClipStartTime_eq_sum_take, totalDuration_eq_sum, List.take_of_length_le h]

theorem clipAtTimeAux_eq_loop (durs : List ℚ) (t : ℚ) (i : Nat) (acc : ℚ) :
    clipAtTimeAux durs t i acc
      = (clipAtTimeLoop durs (t - acc)).map (fun p => (p.1 + i, p.2)) := by
  induction durs generalizing t i acc with
  | nil => simp [clipAtTimeAux, clipAtTimeLoop]
  | cons d rest ih =>
    by_cases h : t < acc + d
    · have h' : t - acc < d := by linarith
      simp [clipAtTimeAux, clipAtTimeLoop, h, h']
    · have h' : ¬ t - acc < d := by
        intro hc; exact h (by linarith)
      rw [clipAtTimeAux, if_neg h, ih, clipAtTimeLoop]
      simp only [if_neg h']
      have harg : t - acc - d = t - (acc + d) := by ring
      rw [harg, Option.map_map]
      have hfun : (fun (p : Nat × ℚ) => (p.1 + (i + 1), p.2))
          = ((fun (p : Nat × ℚ) => (p.1 + i, p.2)) ∘ fun p => (p.1 + 1, p.2)) := by
        funext p
        simp [Function.comp]
        omega
      rw [hfun]

theorem clipAtTimeLoop_isSome (durs : List ℚ) (t : ℚ)
    (h0 : 0 ≤ t) (ht : t < durs.sum) : (clipAtTimeLoop durs t).isSome := by
  induction durs generalizing t with
  | nil =>
    exfalso
    simp only [List.sum_nil] at ht
    linarith
  | cons d rest ih =>
    rw [clipAtTimeLoop]
    by_cases h : t < d
    · simp [h]
    · have h0' : 0 ≤ t - d := by linarith
      have ht' : t - d < rest.sum := by
        simp only [List.sum_cons] at ht
        linarith
      rw [if_neg h]
      cases hres : clipAtTimeLoop rest (t - d) with
      | none =>
        have := ih (t - d) h0' ht'
        rw [hres] at this
        exact absurd this (by simp)
      | some p => simp

theorem clipAtTimeLoop_spec (durs : List ℚ) (t : ℚ) (i : Nat) (l : ℚ)
    (heq : clipAtTimeLoop durs t = some (i, l)) (h0 : 0 ≤ t) :
    ∃ h : i < durs.length,
      (durs.take i).sum ≤ t ∧ t < (durs.take i).sum + durs.get ⟨i, h⟩ ∧
        l = t - (durs.take i).sum := by
  induction durs generalizing t i l with
  | nil => simp [clipAtTimeLoop] at heq
  | cons d rest ih =>
    rw [clipAtTimeLoop] at heq
    by_cases h : t < d
    · rw [if_pos h] at heq
      obtain ⟨rfl, rfl⟩ : 0 = i ∧ t = l := by
        simpa [eq_comm] using heq
      exact ⟨Nat.succ_pos _, by simpa using h0, by simpa using h, by simp⟩
    · rw [if_neg h] at heq
      obtain ⟨⟨i', l'⟩, hrec, hmap⟩ := Option.map_eq_some'.mp heq
      obtain ⟨rfl, rfl⟩ : i' + 1 = i ∧ l' = l := by
        simpa [eq_comm] using hmap
      have h0' : 0 ≤ t - d := by linarith
      obtain ⟨hi, hlow, hhigh, hl⟩ := ih (t - d) i' l' hrec h0'
      refine ⟨by simpa using Nat.succ_lt_succ hi, ?_, ?_, ?_⟩
      · simp only [List.take_succ_cons, List.sum_cons]
        linarith
      · simp only [List.take_succ_cons, List.sum_cons, List.get_cons_succ]
        linarith
      · simp only [List.take_succ_cons, List.sum_cons]
        linarith

theorem clipAtTimeLoop_eq_none_of_ge (durs : List ℚ) (t : ℚ)
    (hnn : ∀ d ∈ durs, 0 ≤ d) (ht : durs.sum ≤ t) :
    clipAtTimeLoop durs t = none := by
  induction durs generalizing t with
  | nil => rfl
  | cons d rest ih =>
    have hrest : 0 ≤ rest.sum := List.sum_nonneg (fun x hx => hnn x (List.mem_cons_of_mem _ hx))
    have hd : ¬ t < d := by
      simp only [List.sum_cons] at ht
      intro hc
      linarith
    rw [clipAtTimeLoop, if_neg hd, ih (t - d)
      (fun x hx => hnn x (List.mem_cons_of_mem _ hx))
      (by simp only [List.sum_cons] at ht; linarith)]
    rfl

theorem sum_take_mono_of_nonneg (l : List ℚ) (hnn : ∀ x ∈ l, 0 ≤ x)
    {a b : Nat} (hab : a ≤ b) : (l.take a).sum ≤ (l.take b).sum := by
  induction l generalizing a b with
  | nil => simp
  | cons x rest ih =>
    cases a with
    | zero =>
      simp only [List.take_zero, List.sum_nil]
      exact List.sum_nonneg (fun y hy => hnn y (List.mem_of_mem_take hy))
    | succ a' =>
      cases b with
      | zero => omega
      | succ b' =>
        simp only [List.take_succ_cons, List.sum_cons]
        have := ih (fun y hy => hnn y (List.mem_cons_of_mem _ hy)) (Nat.succ_le_succ_iff.mp hab)
        linarith

theorem interval_index_unique (durs : List ℚ) (hnn : ∀ d ∈ durs, 0 ≤ d) (t : ℚ)
    (j k : Nat) (hj : j < durs.length) (hk : k < durs.length)
    (hj1 : (durs.take j).sum ≤ t) (hj2 : t < (durs.take j).sum + durs.get ⟨j, hj⟩)
    (hk1 : (durs.take k).sum ≤ t) (hk2 : t < (durs.take k).sum + durs.get ⟨k, hk⟩) :
    j = k := by
  by_contra hne
  rcases Nat.lt_or_ge j k with hlt | hge
  · have hsucc : (durs.take (j + 1)).sum = (durs.take j).sum + durs.get ⟨j, hj⟩ := by
      simpa using List.sum_take_succ durs j hj
    have hmono : (durs.take (j + 1)).sum ≤ (durs.take k).sum :=
      sum_take_mono_of_nonneg durs hnn hlt
    linarith
  · have hlt : k < j := Nat.lt_of_le_of_ne hge (fun h => hne h.symm)
    have hsucc : (durs.take (k + 1)).sum = (durs.take k).sum + durs.get ⟨k, hk⟩ := by
      simpa using List.sum_take_succ durs k hk
    have hmono : (durs.take (k + 1)).sum ≤ (durs.take j).sum :=
      sum_take_mono_of_nonneg durs hnn hlt
    linarith

theorem getClipStartTime_eq_sum_take_map (clips : List Clip) (k : Nat) :
    getClipStartTime clips k = ((clips.map (fun c => c.duration)).take k).sum := by
  rw [getClipStartTime_eq_sum_take, List.map_take]

theorem getClipAtTime_of_loop_some (clips : List Clip) (t : ℚ) (i : Nat) (l : ℚ)
    (h : clipAtTimeLoop (clips.map (fun c => c.duration)) t = some (i, l)) :
    getClipAtTime clips t = (i, l) := by
  unfold getClipAtTime
  rw [clipAtTimeAux_eq_loop]
  simp [h]

/-- C1: for a non-empty clip list with positive durations and
`0 ≤ t < totalDuration`, `getClipAtTime` returns the unique
`(clipIndex, localTime)` with
`startTime(clipIndex) ≤ t < startTime(clipIndex) + duration(clipIndex)` and
`localTime = t - startTime(clipIndex)`; and at the boundary of durations
`[3, 5]` time `3` maps to the next clip: `(1, 0)`. -/
theorem c1_getClipAtTime_unique_interval :
    (∀ (clips : List Clip) (t : ℚ),
      clips ≠ [] → (∀ c ∈ clips, 0 < c.duration) → 0 ≤ t → t < totalDuration clips →
      ∃ h : (getClipAtTime clips t).1 < clips.length,
        getClipStartTime clips (getClipAtTime clips t).1 ≤ t ∧
        t < getClipStartTime clips (getClipAtTime clips t).1
              + (clips.get ⟨(getClipAtTime clips t).1, h⟩).duration ∧
        (getClipAtTime clips t).2 = t - getClipStartTime clips (getClipAtTime clips t).1 ∧
        ∀ (j : Nat) (hj : j < clips.length),
          getClipStartTime clips j ≤ t →
          t < getClipStartTime clips j + (clips.get ⟨j, hj⟩).duration →
          j = (getClipAtTime clips t).1) ∧
    getClipAtTime [mkClip "A" 3, mkClip "B" 5] 3 = (1, 0) := by
  constructor
  · intro clips t _hne hpos h0 ht
    have hnn : ∀ d ∈ clips.map (fun c => c.duration), 0 ≤ d := by
      intro d hd
      obtain ⟨c, hc, rfl⟩ := List.mem_map.mp hd
      exact le_of_lt (hpos c hc)
    have htsum : t < (clips.map (fun c => c.duration)).sum := by
      rw [← totalDuration_eq_sum]; exact ht
    have hsome := clipAtTimeLoop_isSome (clips.map (fun c => c.duration)) t h0 htsum
    obtain ⟨⟨i, l⟩, hres⟩ := Option.isSome_iff_exists.mp hsome
    have hval := getClipAtTime_of_loop_some clips t i l hres
    obtain ⟨hilen, hlow, hhigh, hl⟩ :=
      clipAtTimeLoop_spec (clips.map (fun c => c.duration)) t i l hres h0
    have hilen' : i < clips.length := by simpa using hilen
    have hget : (clips.map (fun c => c.duration)).get ⟨i, hilen⟩
        = (clips.get ⟨i, hilen'⟩).duration := by
      simp [List.get_map]
    rw [hval]
    refine ⟨hilen', ?_, ?_, ?_, ?_⟩
    · rw [getClipStartTime_eq_sum_take_map]; exact hlow
    · rw [getClipStartTime_eq_sum_take_map, ← hget]; exact hhigh
    · rw [getClipStartTime_eq_sum_take_map]; exact hl
    · intro j hj hjlow hjhigh
      have hjlen : j < (clips.map (fun c => c.duration)).length := by simpa using hj
      have hgetj : (clips.map (fun c => c.duration)).get ⟨j, hjlen⟩
          = (clips.get ⟨j, hj⟩).duration := by
        simp [List.get_map]
      refine interval_index_unique (clips.map (fun c => c.duration)) hnn t j i hjlen hilen
        ?_ ?_ ?_ ?_
      · rw [← getClipStartTime_eq_sum_take_map]; exact hjlow
      · rw [← getClipStartTime_eq_sum_take_map, hgetj]; exact hjhigh
      · exact hlow
      · exact hhigh
  · norm_num [getClipAtTime, clipAtTimeAux, mkClip]

/-- C1 witness: at durations `[3, 5]` and `t = 3` the hypotheses hold and the
mapping returns clip index 1 with local time 0, which satisfies the interval
characterization. -/
theorem c1_witness :
    ([mkClip "A" 3, mkClip "B" 5] ≠ ([] : List Clip) ∧
      (∀ c ∈ [mkClip "A" 3, mkClip "B" 5], 0 < c.duration) ∧
      (0:ℚ) ≤ 3 ∧ (3:ℚ) < totalDuration [mkClip "A" 3, mkClip "B" 5]) ∧
    ∃ h : (getClipAtTime [mkClip "A" 3, mkClip "B" 5] 3).1
        < [mkClip "A" 3, mkClip "B" 5].length,
      getClipStartTime [mkClip "A" 3, mkClip "B" 5]
          (getClipAtTime [mkClip "A" 3, mkClip "B" 5] 3).1 ≤ 3 ∧
      (3:ℚ) < getClipStartTime [mkClip "A" 3, mkClip "B" 5]
            (getClipAtTime [mkClip "A" 3, mkClip "B" 5] 3).1
          + ([mkClip "A" 3, mkClip "B" 5].get
              ⟨(getClipAtTime [mkClip "A" 3, mkClip "B" 5] 3).1, h⟩).duration ∧
      (getClipAtTime [mkClip "A" 3, mkClip "B" 5] 3).2
        = 3 - getClipStartTime [mkClip "A" 3, mkClip "B" 5]
            (getClipAtTime [mkClip "A" 3, mkClip "B" 5] 3).1 ∧
      ∀ (j : Nat) (hj : j < [mkClip "A" 3, mkClip "B" 5].length),
        getClipStartTime [mkClip "A" 3, mkClip "B" 5] j ≤ 3 →
        (3:ℚ) < getClipStartTime [mkClip "A" 3, mkClip "B" 5] j
            + ([mkClip "A" 3, mkClip "B" 5].get ⟨j, hj⟩).duration →
        j = (getClipAtTime [mkClip "A" 3, mkClip "B" 5] 3).1 := by
  refine ⟨⟨by decide, by decide, by norm_num, by norm_num [totalDuration, mkClip]⟩, ?_⟩
  exact c1_getClipAtTime_unique_interval.1 [mkClip "A" 3, mkClip "B" 5] 3
    (by decide) (by decide) (by norm_num) (by norm_num [totalDuration, mkClip])

/-- C7: for a non-empty clip list with positive durations and
`t ≥ totalDuration`, `getClipAtTime` clamps to the last clip at its full
duration; for the empty clip list it returns the defined empty result
`(0, 0)`. -/
theorem c7_getClipAtTime_clamp :
    (∀ (clips : List Clip) (t : ℚ) (hne : clips ≠ []),
      (∀ c ∈ clips, 0 < c.duration) → totalDuration clips ≤ t →
      getClipAtTime clips t = (clips.length - 1, (clips.getLast hne).duration)) ∧
    ∀ t : ℚ, getClipAtTime [] t = (0, 0) := by
  constructor
  · intro clips t hne hpos ht
    have hnn : ∀ d ∈ clips.map (fun c => c.duration), 0 ≤ d := by
      intro d hd
      obtain ⟨c, hc, rfl⟩ := List.mem_map.mp hd
      exact le_of_lt (hpos c hc)
    have hsum : (clips.map (fun c => c.duration)).sum ≤ t := by
      rw [← totalDuration_eq_sum]; exact ht
    have hnone := clipAtTimeLoop_eq_none_of_ge (clips.map (fun c => c.duration)) t hnn hsum
    unfold getClipAtTime
    rw [clipAtTimeAux_eq_loop]
    simp only [sub_zero, hnone, Option.map_none']
    rw [List.getLast?_eq_getLast clips hne]
  · intro t
    rfl

/-- C7 witness: with durations `[3, 5]` and `t = 9 > 8 = totalDuration`,
the result is the last clip index `1` at local time `5`, and the empty list
gives `(0, 0)`. -/
theorem c7_witness :
    ((∀ c ∈ [mkClip "A" 3, mkClip "B" 5], 0 < c.duration) ∧
      totalDuration [mkClip "A" 3, mkClip "B" 5] ≤ 9) ∧
    getClipAtTime [mkClip "A" 3, mkClip "B" 5] 9
      = ([mkClip "A" 3, mkClip "B" 5].length - 1,
          ([mkClip "A" 3, mkClip "B" 5].getLast (by simp)).duration) ∧
    getClipAtTime [] 0 = (0, 0) := by
  refine ⟨⟨by decide, by norm_num [totalDuration, mkClip]⟩, ?_, c7_getClipAtTime_clamp.2 0⟩
  exact c7_getClipAtTime_clamp.1 [mkClip "A" 3, mkClip "B" 5] 9 (by simp)
    (by decide) (by norm_num [totalDuration, mkClip])

/-- C8 counterexample: the claim says `startTime` fails with
`IndexOutOfRange` for every index at or past the end; but at index 2 of a
2-clip list the code's `getClipStartTime` returns the plain total `8`
while the spec-side `startTimeSpec` is the `IndexOutOfRange` error. -/
theorem c8_counterexample :
    getClipStartTime [mkClip "A" 3, mkClip "B" 5] 2 = 8 ∧
    startTimeSpec [mkClip "A" 3, mkClip "B" 5] 2
      = Except.error "IndexOutOfRange" ∧
    Except.ok (getClipStartTime [mkClip "A" 3, mkClip "B" 5] 2)
      ≠ startTimeSpec [mkClip "A" 3, mkClip "B" 5] 2 := by
  refine ⟨?_, ?_, ?_⟩
  · norm_num [getClipStartTime, mkClip]
  · rfl
  · intro h
    rw [startTimeSpec] at h
    simp at h

/-- C8 amended: `getClipStartTime` returns the sum of the durations of the
clips before the index (0 for index 0) when the index is in range, and for
every index at or past the end it returns the total duration of the list —
no error is raised. -/
theorem c8_getClipStartTime_clamped :
    ∀ (clips : List Clip) (i : Nat),
      (i < clips.length →
        getClipStartTime clips i = ((clips.take i).map (fun c => c.duration)).sum) ∧
      (clips.length ≤ i → getClipStartTime clips i = totalDuration clips) ∧
      getClipStartTime clips 0 = 0 := by
  intro clips i
  refine ⟨fun _ => getClipStartTime_eq_sum_take clips i,
    fun h => getClipStartTime_of_ge_length clips i h, ?_⟩
  cases clips <;> rfl

/-- C8 witness: at `[3, 5]` index 1 is in range with start time 3, and
index 5 is out of range and returns the total duration 8. -/
theorem c8_witness :
    ((1 < [mkClip "A" 3, mkClip "B" 5].length →
        getClipStartTime [mkClip "A" 3, mkClip "B" 5] 1
          = (([mkClip "A" 3, mkClip "B" 5].take 1).map (fun c => c.duration)).sum) ∧
      ([mkClip "A" 3, mkClip "B" 5].length ≤ 1 →
        getClipStartTime [mkClip "A" 3, mkClip "B" 5] 1
          = totalDuration [mkClip "A" 3, mkClip "B" 5]) ∧
      getClipStartTime [mkClip "A" 3, mkClip "B" 5] 0 = 0) ∧
    ([mkClip "A" 3, mkClip "B" 5].length ≤ 5 →
      getClipStartTime [mkClip "A" 3, mkClip "B" 5] 5
        = totalDuration [mkClip "A" 3, mkClip "B" 5]) := by
  exact ⟨c8_getClipStartTime_clamped [mkClip "A" 3, mkClip "B" 5] 1,
    (c8_getClipStartTime_clamped [mkClip "A" 3, mkClip "B" 5] 5).2.1⟩

/-- Embeds `getAllClipsForExport` of `useVideoEditor.ts`: iterate over the
top-timeline clips pushing each one, and after the clip at 0-based index
`index`, look up a slot with `alignsWithPosition === index + 1` and push its
clip when it holds one. -/
def getAllClipsForExport (top : List Clip) (slots : List TimelineSlot) : List Clip :=
  top.enum.foldl
    (fun exportClips p =>
      let pushed := exportClips ++ [p.2]
      match slots.find? (fun s => s.alignsWithPosition == p.1 + 1) with
      | some s =>
        match s.clip with
        | some c => pushed ++ [c]
        | none => pushed
      | none => pushed)
    []

/-- The clip emitted after position `pos` by the code path: the clip (if
any) of the first slot whose `alignsWithPosition` is `pos`. -/
def codeSlotClipAt (slots : List TimelineSlot) (pos : Nat) : Option Clip :=
  (slots.find? (fun s => s.alignsWithPosition == pos)).bind (fun s => s.clip)

/-- Modelled from the spec (section 3, Merged export sequence): after the
fixed clip at 1-based position `pos`, emit the clip of a slot whose
`anchorPosition == pos` **and** which holds a clip. -/
def filledSlotClipAt (slots : List TimelineSlot) (pos : Nat) : Option Clip :=
  (slots.find? (fun s => s.clip.isSome && s.alignsWithPosition == pos)).bind
    (fun s => s.clip)

/-- Modelled from the spec (section 3, Merged export sequence): for each
fixed position `p` (1-based) emit the fixed clip at `p`, then the filled
slot clip anchored at `p` if there is one. -/
def mergedExportSpec (top : List Clip) (slots : List TimelineSlot) : List Clip :=
  top.enum.flatMap (fun p => p.2 :: (filledSlotClipAt slots (p.1 + 1)).toList)

/-- Embeds the merge of `handleGenerateVideo` in `DualTimeline.tsx`: map
over the top clips; at each 0-based `index`, find a slot with a clip whose
`alignsWithPosition === index + 1` and use its clip in place of the fixed
clip (`slot?.clip || clip`). -/
def handleGenerateVideoMerged (top : List Clip) (slots : List TimelineSlot) : List Clip :=
  top.enum.map (fun p =>
    match slots.find? (fun s => s.clip.isSome && s.alignsWithPosition == p.1 + 1) with
    | some s => s.clip.getD p.2
    | none => p.2)

theorem getAllClipsForExport_fold_eq (slots : List TimelineSlot) :
    ∀ (l : List (Nat × Clip)) (acc : List Clip),
      l.foldl
        (fun exportClips p =>
          let pushed := exportClips ++ [p.2]
          match slots.find? (fun s => s.alignsWithPosition == p.1 + 1) with
          | some s =>
            match s.clip with
            | some c => pushed ++ [c]
            | none => pushed
          | none => pushed)
        acc
      = acc ++ l.flatMap (fun p => p.2 :: (codeSlotClipAt slots (p.1 + 1)).toList) := by
  intro l
  induction l with
  | nil => intro acc; simp
  | cons p rest ih =>
    intro acc
    rw [List.foldl_cons, ih, List.flatMap_cons]
    cases hfind : slots.find? (fun s => s.alignsWithPosition == p.1 + 1) with
    | none => simp [codeSlotClipAt, hfind]
    | some s =>
      cases hclip : s.clip with
      | none => simp [codeSlotClipAt, hfind, hclip]
      | some c => simp [codeSlotClipAt, hfind, hclip]

theorem codeSlotClipAt_eq_filled (slots : List TimelineSlot)
    (hnd : (slots.map (fun s => s.alignsWithPosition)).Nodup) (pos : Nat) :
    codeSlotClipAt slots pos = filledSlotClipAt slots pos := by
  induction slots with
  | nil => rfl
  | cons s rest ih =>
    have hnd' : (rest.map (fun x => x.alignsWithPosition)).Nodup :=
      (List.nodup_cons.mp hnd).2
    have hnotmem : s.alignsWithPosition ∉ rest.map (fun x => x.alignsWithPosition) :=
      (List.nodup_cons.mp hnd).1
    by_cases hpos : s.alignsWithPosition = pos
    · cases hclip : s.clip with
      | some c =>
        unfold codeSlotClipAt filledSlotClipAt
        rw [List.find?_cons_of_pos _ (by simp [hpos]),
          List.find?_cons_of_pos _ (by simp [hpos, hclip])]
      | none =>
        unfold codeSlotClipAt filledSlotClipAt
        rw [List.find?_cons_of_pos _ (by simp [hpos]),
          List.find?_cons_of_neg _ (by simp [hclip]),
          List.find?_eq_none.mpr ?_]
        · simp [hclip]
        · intro x hx
          simp only [Bool.and_eq_true, beq_iff_eq, not_and]
          intro _
          intro hxpos
          exact hnotmem (by
            rw [← hxpos] at hpos
            rw [hpos]
            exact List.mem_map_of_mem _ hx)
    · unfold codeSlotClipAt filledSlotClipAt
      rw [List.find?_cons_of_neg _ (by simp [hpos]),
        List.find?_cons_of_neg _ (by simp [hpos])]
      exact ih hnd'

/-- Fixed top-timeline fixture `[F1..F7]` used in the merge examples. -/
def fixedClips : List Clip :=
  [mkClip "F1" 1, mkClip "F2" 1, mkClip "F3" 1, mkClip "F4" 1,
   mkClip "F5" 1, mkClip "F6" 1, mkClip "F7" 1]

/-- Slot fixture anchored at positions 2, 4, 6 with all three uploads. -/
def slotsAllFilled : List TimelineSlot :=
  [⟨0, 2, some (mkClip "U1" 1)⟩, ⟨1, 4, some (mkClip "U2" 1)⟩,
   ⟨2, 6, some (mkClip "U3" 1)⟩]

/-- Slot fixture with only the position-4 slot filled. -/
def slotsOnlyPos4 : List TimelineSlot :=
  [⟨0, 2, none⟩, ⟨1, 4, some (mkClip "U2" 1)⟩, ⟨2, 6, none⟩]

/-- C2: with pairwise-distinct anchor positions, `getAllClipsForExport`
equals the spec-side insert-after merge (fixed clip at each position, then
the filled slot clip anchored there); on `[F1..F7]` with slots
`{2→U1, 4→U2, 6→U3}` all filled the result is
`[F1,F2,U1,F3,F4,U2,F5,F6,U3,F7]`, and with only position 4 filled it is
`[F1,F2,F3,F4,U2,F5,F6,F7]`. -/
theorem c2_getAllClipsForExport_merge :
    (∀ (top : List Clip) (slots : List TimelineSlot),
      (slots.map (fun s => s.alignsWithPosition)).Nodup →
      getAllClipsForExport top slots = mergedExportSpec top slots) ∧
    getAllClipsForExport fixedClips slotsAllFilled
      = [mkClip "F1" 1, mkClip "F2" 1, mkClip "U1" 1, mkClip "F3" 1,
         mkClip "F4" 1, mkClip "U2" 1, mkClip "F5" 1, mkClip "F6" 1,
         mkClip "U3" 1, mkClip "F7" 1] ∧
    getAllClipsForExport fixedClips slotsOnlyPos4
      = [mkClip "F1" 1, mkClip "F2" 1, mkClip "F3" 1, mkClip "F4" 1,
         mkClip "U2" 1, mkClip "F5" 1, mkClip "F6" 1, mkClip "F7" 1] := by
  refine ⟨?_, by rfl, by rfl⟩
  intro top slots hnd
  unfold getAllClipsForExport mergedExportSpec
  rw [getAllClipsForExport_fold_eq, List.nil_append]
  have hfun : (fun (p : Nat × Clip) => p.2 :: (codeSlotClipAt slots (p.1 + 1)).toList)
      = fun p => p.2 :: (filledSlotClipAt slots (p.1 + 1)).toList := by
    funext p
    rw [codeSlotClipAt_eq_filled slots hnd]
  rw [hfun]

/-- C2 witness: the general merge equation applied to the all-filled
fixture, whose anchor positions 2, 4, 6 are pairwise distinct. -/
theorem c2_witness :
    (slotsAllFilled.map (fun s => s.alignsWithPosition)).Nodup ∧
    getAllClipsForExport fixedClips slotsAllFilled
      = mergedExportSpec fixedClips slotsAllFilled := by
  refine ⟨by decide, ?_⟩
  exact c2_getAllClipsForExport_merge.1 fixedClips slotsAllFilled (by decide)

theorem find?_filled_eq_some_of_mem (slots : List TimelineSlot)
    (hnd : (slots.map (fun s => s.alignsWithPosition)).Nodup)
    (s : TimelineSlot) (hs : s ∈ slots) (u : Clip) (hu : s.clip = some u)
    (pos : Nat) (hpos : s.alignsWithPosition = pos) :
    slots.find? (fun x => x.clip.isSome && x.alignsWithPosition == pos) = some s := by
  induction slots with
  | nil => cases hs
  | cons h rest ih =>
    have hnd' : (rest.map (fun x => x.alignsWithPosition)).Nodup :=
      (List.nodup_cons.mp hnd).2
    have hnotmem : h.alignsWithPosition ∉ rest.map (fun x => x.alignsWithPosition) :=
      (List.nodup_cons.mp hnd).1
    rcases List.mem_cons.mp hs with rfl | hmem
    · exact List.find?_cons_of_pos _ (by simp [hu, hpos])
    · have hne : h.alignsWithPosition ≠ pos := by
        intro hc
        exact hnotmem (by
          rw [hc, ← hpos]
          exact List.mem_map_of_mem _ hmem)
      rw [List.find?_cons_of_neg _ (by simp [hne])]
      exact ih hnd' hmem

/-- C10: `handleGenerateVideo` builds a replace merge, not an insert-after
merge: with pairwise-distinct anchor positions the result has exactly the
length of the fixed sequence, position `i` (0-based) holds the slot clip of
a filled slot anchored at `i + 1` when there is one, and the fixed clip
otherwise. -/
theorem c10_handleGenerateVideo_replaces :
    ∀ (top : List Clip) (slots : List TimelineSlot),
      (slots.map (fun s => s.alignsWithPosition)).Nodup →
      (handleGenerateVideoMerged top slots).length = top.length ∧
      (∀ (i : Nat) (s : TimelineSlot) (u : Clip),
        i < top.length → s ∈ slots → s.alignsWithPosition = i + 1 →
        s.clip = some u →
        (handleGenerateVideoMerged top slots)[i]? = some u) ∧
      (∀ (i : Nat) (hi : i < top.length),
        (∀ s ∈ slots, s.clip.isSome → s.alignsWithPosition ≠ i + 1) →
        (handleGenerateVideoMerged top slots)[i]? = some (top.get ⟨i, hi⟩)) := by
  intro top slots hnd
  refine ⟨by simp [handleGenerateVideoMerged], ?_, ?_⟩
  · intro i s u hi hs hpos hu
    have henum : top.enum[i]? = some (i, top.get ⟨i, hi⟩) := by
      simp [List.getElem?_enum, List.getElem?_eq_getElem hi]
    rw [handleGenerateVideoMerged, List.getElem?_map, henum, Option.map_some',
      find?_filled_eq_some_of_mem slots hnd s hs u hu (i + 1) hpos]
    simp [hu]
  · intro i hi hnone
    have henum : top.enum[i]? = some (i, top.get ⟨i, hi⟩) := by
      simp [List.getElem?_enum, List.getElem?_eq_getElem hi]
    have hfind : slots.find?
        (fun x => x.clip.isSome && x.alignsWithPosition == i + 1) = none := by
      rw [List.find?_eq_none]
      intro x hx
      simp only [Bool.and_eq_true, beq_iff_eq, not_and]
      intro hsome
      exact hnone x hx hsome
    rw [handleGenerateVideoMerged, List.getElem?_map, henum, Option.map_some', hfind]

/-- C10 witness: on the fixture, position 2 (0-based 1) holds the uploaded
clip `U1` anchored at position 2, and position 1 (0-based 0) keeps the
fixed clip `F1`. -/
theorem c10_witness :
    (fixedClips.length = 7 ∧
      (handleGenerateVideoMerged fixedClips slotsAllFilled).length
        = fixedClips.length) ∧
    (handleGenerateVideoMerged fixedClips slotsAllFilled)[1]?
      = some (mkClip "U1" 1) ∧
    (handleGenerateVideoMerged fixedClips slotsAllFilled)[0]?
      = some (fixedClips.get ⟨0, by decide⟩) := by
  have h := c10_handleGenerateVideo_replaces fixedClips slotsAllFilled (by decide)
  refine ⟨⟨by decide, h.1⟩, ?_, ?_⟩
  · exact h.2.1 1 ⟨0, 2, some (mkClip "U1" 1)⟩ (mkClip "U1" 1)
      (by decide) (by decide) rfl rfl
  · exact h.2.2 0 (by decide) (by decide)

/-- State of the Preview player relevant to restart-vs-resume: the current
clip index, the editor `isPlaying` flag, and the global times reported via
`onTimeUpdate` (appended in call order). -/
structure PreviewState where
  currentClipIndex : Nat
  isPlaying : Bool
  reportedTimes : List ℚ
deriving DecidableEq, Repr

/-- Embeds `handleVideoEnded` of the Preview component (`DualTimeline.tsx`):
when the ended clip is not the last, advance `currentClipIndex`, load the
next clip, and report its start time; when it is the last, call `onEnded`,
which `page.tsx` wires to `pause()` (`setIsPlaying(false)`). No other state
is touched on the last-clip branch. -/
def handleVideoEnded (clips : List Clip) (st : PreviewState) : PreviewState :=
  if st.currentClipIndex < clips.length - 1 then
    let nextIndex := st.currentClipIndex + 1
    { st with currentClipIndex := nextIndex,
              reportedTimes := st.reportedTimes ++ [getClipStartTime clips nextIndex] }
  else
    { st with isPlaying := false }

/-- Embeds a play request: `useVideoEditor.play` sets `isPlaying` to true and
the Preview `isPlaying` sync effect then calls `play()` on the active media
element in place; neither changes `currentClipIndex` nor reports a time. -/
def playRequest (st : PreviewState) : PreviewState :=
  { st with isPlaying := true }

/-- Embeds a pause request: `useVideoEditor.pause` sets `isPlaying` to false
and the sync effect pauses the active element in place. -/
def pauseRequest (st : PreviewState) : PreviewState :=
  { st with isPlaying := false }

/-- C3 evaluation: the code has no restart-from-end logic. With clips of
durations `[3, 5]`, after the last clip (index 1) ends naturally, a play
request leaves `currentClipIndex` at 1 and reports no global time — in
particular it does not reset the index to 0 nor report time 0, contradicting
the claim (and the repository README's documented `hasEndedRef` fix). The
resume-after-manual-pause half of the claim does hold: play after pause
changes only the `isPlaying` flag. -/
theorem c3_play_after_natural_end_stays_at_last_clip :
    (handleVideoEnded [mkClip "A" 3, mkClip "B" 5]
        { currentClipIndex := 1, isPlaying := true, reportedTimes := [] }).isPlaying
      = false ∧
    (playRequest (handleVideoEnded [mkClip "A" 3, mkClip "B" 5]
        { currentClipIndex := 1, isPlaying := true, reportedTimes := [] })).currentClipIndex
      = 1 ∧
    (playRequest (handleVideoEnded [mkClip "A" 3, mkClip "B" 5]
        { currentClipIndex := 1, isPlaying := true, reportedTimes := [] })).reportedTimes
      = [] ∧
    (∀ st : PreviewState, playRequest (pauseRequest st)
        = { st with isPlaying := true }) := by
  refine ⟨rfl, rfl, rfl, fun st => rfl⟩

/-- JavaScript `Math.round`: round half up. -/
def jsRound (q : ℚ) : ℤ := ⌊q + 1/2⌋

/-- Content written into the engine's virtual filesystem: raw bytes from a
fetched clip, or the text of the concat manifest. -/
inductive FileContent where
  | bytes (bs : List Nat)
  | text (s : String)
deriving DecidableEq, Repr

/-- Operations issued against the transcode engine (`ffmpeg` in the source):
file writes, the per-clip normalize `exec`, the concat `exec`, the output
read, and best-effort deletes. -/
inductive EngineOp where
  | writeFile (name : String) (content : FileContent)
  | execNormalize (input output : String)
  | execConcat (manifest : String)
  | readFile (name : String)
  | deleteFile (name : String)
deriving DecidableEq, Repr

/-- Name `input{i}.mp4` holding the fetched bytes of the i-th clip. -/
def inputName (i : Nat) : String := "input" ++ toString i ++ ".mp4"

/-- Name `temp{i}.mp4` holding the normalized output of the i-th clip. -/
def tempName (i : Nat) : String := "temp" ++ toString i ++ ".mp4"

/-- The single-quote character used around file names in the manifest. -/
def quoteChar : String := "\x27"

/-- One manifest line of the concat list built by the source:
`file ` followed by the quoted normalized-output name `temp{i}.mp4`. -/
def manifestLine (i : Nat) : String :=
  "file " ++ quoteChar ++ tempName i ++ quoteChar

/-- Embeds the `concatList` construction of `useExport.ts` (and identically
`handleDownload` in `DualTimeline.tsx`) as the list of lines before the
`join("\n")`: `clips.map((_, i) => ...)` maps each 0-based sequence index
to its manifest line, so the lines depend only on the clip count and are in
sequence order. -/
def concatLines (n : Nat) : List String := (List.range n).map manifestLine

/-- The joined manifest text (`join("\n")`). -/
def concatListStr (n : Nat) : String := String.intercalate "\n" (concatLines n)

/-- Behavior of the environment during one export run: the byte store
behind `fetchFile`, failure switches for each awaited step, the progress
fractions the engine emits during each `exec` (delivered to the `progress`
handler installed in `loadFFmpeg`), the bytes read back from `output.mp4`,
and per-name deletion failures. -/
structure EngineBehavior where
  store : String → List Nat
  fetchFail : Nat → Bool
  normFail : Nat → Bool
  normEvents : Nat → List ℚ
  concatFail : Bool
  concatEvents : List ℚ
  readFail : Bool
  outputBytes : List Nat
  delFail : String → Bool

/-- The fetch/write loop of `concatenateVideos`: for each enumerated clip,
set progress to `round((i+1)/n*20)`, then fetch (throwing on failure) and
write `input{i}.mp4`. Returns the issued operations, the progress values,
and whether the loop completed. -/
def fetchLoop (b : EngineBehavior) (n : Nat) :
    List (Nat × Clip) → List EngineOp × List ℤ × Bool
  | [] => ([], [], true)
  | (i, c) :: rest =>
    let p := jsRound (((i : ℚ) + 1) / (n : ℚ) * 20)
    if b.fetchFail i then ([], [p], false)
    else
      let r := fetchLoop b n rest
      (EngineOp.writeFile (inputName i) (FileContent.bytes (b.store c.src)) :: r.1,
       p :: r.2.1, r.2.2)

/-- The normalize loop of `concatenateVideos`: for each index, run the
normalize `exec` from `input{i}.mp4` to `temp{i}.mp4` (during which the
engine progress handler sets `round(prog*100)` for each emitted fraction,
and which may throw), then set progress to `25 + round((i+1)/n*50)`. -/
def normLoop (b : EngineBehavior) (n : Nat) :
    List Nat → List EngineOp × List ℤ × Bool
  | [] => ([], [], true)
  | i :: rest =>
    let evs := (b.normEvents i).map (fun e => jsRound (e * 100))
    if b.normFail i then
      ([EngineOp.execNormalize (inputName i) (tempName i)], evs, false)
    else
      let r := normLoop b n rest
      (EngineOp.execNormalize (inputName i) (tempName i) :: r.1,
       evs ++ (25 + jsRound (((i : ℚ) + 1) / (n : ℚ) * 50)) :: r.2.1, r.2.2)

/-- The per-clip cleanup loop on the success path: each iteration tries
`deleteFile(input{i}.mp4)` then `deleteFile(temp{i}.mp4)` inside one
`try`, so a failing input delete skips that clip's temp delete; the catch
swallows the error and the loop continues. -/
def cleanupLoop (b : EngineBehavior) : List Nat → List EngineOp
  | [] => []
  | i :: rest =>
    (EngineOp.deleteFile (inputName i) ::
      (if b.delFail (inputName i) then [] else [EngineOp.deleteFile (tempName i)]))
      ++ cleanupLoop b rest

/-- The final cleanup `try` on the success path: delete `concat.txt` then
`output.mp4`; a failing manifest delete skips the output delete. -/
def finalCleanup (b : EngineBehavior) : List EngineOp :=
  EngineOp.deleteFile "concat.txt" ::
    (if b.delFail "concat.txt" then [] else [EngineOp.deleteFile "output.mp4"])

/-- Embeds `concatenateVideos` of `useExport.ts`: progress 0, the fetch
loop (0-20%), progress 25, the normalize loop (25-75%), writing the concat
manifest, progress 80, the concat `exec`, progress 90, reading
`output.mp4`, progress 95 and 100 around delivery, then best-effort
cleanup. A thrown error at any step aborts to the catch (no cleanup) and
yields no output. Returns (output bytes or none, engine ops, progress
values in order). -/
def concatenateVideos (b : EngineBehavior) (clips : List Clip) :
    Option (List Nat) × List EngineOp × List ℤ :=
  let n := clips.length
  let fr := fetchLoop b n clips.enum
  if !fr.2.2 then (none, fr.1, 0 :: fr.2.1)
  else
    let nr := normLoop b n (List.range n)
    if !nr.2.2 then (none, fr.1 ++ nr.1, (0 :: fr.2.1) ++ (25 :: nr.2.1))
    else
      let opsC := (fr.1 ++ nr.1
        ++ [EngineOp.writeFile "concat.txt" (FileContent.text (concatListStr n))])
        ++ [EngineOp.execConcat "concat.txt"]
      let psC := ((0 :: fr.2.1) ++ (25 :: nr.2.1))
        ++ (80 :: b.concatEvents.map (fun e => jsRound (e * 100)))
      if b.concatFail then (none, opsC, psC)
      else
        let opsR := opsC ++ [EngineOp.readFile "output.mp4"]
        let psR := psC ++ [90]
        if b.readFail then (none, opsR, psR)
        else
          (some b.outputBytes,
           opsR ++ cleanupLoop b (List.range n) ++ finalCleanup b,
           psR ++ [95, 100])

/-- Result of `exportVideo`: the empty-list early return (sets an error
message, no export), a delivered byte buffer, or a caught failure. -/
inductive ExportResult where
  | noClips
  | delivered (bytes : List Nat)
  | failed
deriving DecidableEq, Repr

/-- Embeds `exportVideo` of `useExport.ts`: empty list returns early with
an error message; exactly one clip sets progress 0 then 50, fetches the
clip's own bytes and delivers them directly (no engine operation at all),
then sets progress 100; two or more clips run `concatenateVideos` after
the initial progress 0. A caught failure sets progress back to 0; on
success the delayed `setTimeout` reset fires after the export call and is
not part of the call's trace. -/
def exportVideo (b : EngineBehavior) (clips : List Clip) :
    ExportResult × List EngineOp × List ℤ :=
  match clips with
  | [] => (ExportResult.noClips, [], [])
  | [c] =>
    if b.fetchFail 0 then (ExportResult.failed, [], [0, 50, 0])
    else (ExportResult.delivered (b.store c.src), [], [0, 50, 100])
  | _ =>
    let r := concatenateVideos b clips
    match r.1 with
    | some bs => (ExportResult.delivered bs, r.2.1, 0 :: r.2.2)
    | none => (ExportResult.failed, r.2.1, (0 :: r.2.2) ++ [0])

theorem fetchLoop_ok (b : EngineBehavior) (n : Nat) :
    ∀ l : List (Nat × Clip), (∀ p ∈ l, b.fetchFail p.1 = false) →
      fetchLoop b n l
        = (l.map (fun p => EngineOp.writeFile (inputName p.1)
              (FileContent.bytes (b.store p.2.src))),
           l.map (fun p => jsRound (((p.1 : ℚ) + 1) / (n : ℚ) * 20)),
           true) := by
  intro l
  induction l with
  | nil => intro _; rfl
  | cons p rest ih =>
    intro h
    obtain ⟨i, c⟩ := p
    have hhead : b.fetchFail i = false := h (i, c) (List.mem_cons_self _ _)
    rw [fetchLoop, if_neg (by simp [hhead]), ih (fun q hq => h q (List.mem_cons_of_mem _ hq))]
    simp

theorem normLoop_ok (b : EngineBehavior) (n : Nat) :
    ∀ l : List Nat, (∀ i ∈ l, b.normFail i = false) →
      normLoop b n l
        = (l.map (fun i => EngineOp.execNormalize (inputName i) (tempName i)),
           l.flatMap (fun i => (b.normEvents i).map (fun e => jsRound (e * 100))
             ++ [25 + jsRound (((i : ℚ) + 1) / (n : ℚ) * 50)]),
           true) := by
  intro l
  induction l with
  | nil => intro _; rfl
  | cons i rest ih =>
    intro h
    have hhead : b.normFail i = false := h i (List.mem_cons_self _ _)
    rw [normLoop, if_neg (by simp [hhead]), ih (fun q hq => h q (List.mem_cons_of_mem _ hq))]
    simp [List.flatMap_cons]

theorem cleanupLoop_ok (b : EngineBehavior) (hdel : ∀ s, b.delFail s = false) :
    ∀ l : List Nat,
      cleanupLoop b l
        = l.flatMap (fun i =>
            [EngineOp.deleteFile (inputName i), EngineOp.deleteFile (tempName i)]) := by
  intro l
  induction l with
  | nil => rfl
  | cons i rest ih =>
    rw [cleanupLoop, if_neg (by simp [hdel]), ih, List.flatMap_cons]

theorem concatenateVideos_ok (b : EngineBehavior) (clips : List Clip)
    (hf : ∀ i, b.fetchFail i = false) (hn : ∀ i, b.normFail i = false)
    (hc : b.concatFail = false) (hr : b.readFail = false) :
    concatenateVideos b clips
      = (some b.outputBytes,
         (clips.enum.map (fun p => EngineOp.writeFile (inputName p.1)
              (FileContent.bytes (b.store p.2.src))))
           ++ (List.range clips.length).map
                (fun i => EngineOp.execNormalize (inputName i) (tempName i))
           ++ [EngineOp.writeFile "concat.txt"
                (FileContent.text (concatListStr clips.length)),
               EngineOp.execConcat "concat.txt",
               EngineOp.readFile "output.mp4"]
           ++ cleanupLoop b (List.range clips.length) ++ finalCleanup b,
         (0 :: clips.enum.map
              (fun p => jsRound (((p.1 : ℚ) + 1) / (clips.length : ℚ) * 20)))
           ++ (25 :: (List.range clips.length).flatMap
                (fun i => (b.normEvents i).map (fun e => jsRound (e * 100))
                  ++ [25 + jsRound (((i : ℚ) + 1) / (clips.length : ℚ) * 50)]))
           ++ (80 :: b.concatEvents.map (fun e => jsRound (e * 100)))
           ++ [90, 95, 100]) := by
  have hfr := fetchLoop_ok b clips.length clips.enum (fun p _ => hf p.1)
  have hnr := normLoop_ok b clips.length (List.range clips.length) (fun i _ => hn i)
  rw [concatenateVideos, hfr, hnr]
  simp [hc, hr, List.append_assoc]

/-- A run in which every engine step succeeds and no progress events are
emitted; used as the concrete witness environment. -/
def quietBehavior : EngineBehavior :=
  { store := fun _ => [7],
    fetchFail := fun _ => false, normFail := fun _ => false,
    normEvents := fun _ => [], concatFail := false, concatEvents := [],
    readFail := false, outputBytes := [1, 2], delFail := fun _ => false }

/-- C4: for every one-element clip list, `exportVideo` issues no engine
operation at all (the normalize and concatenate steps are skipped), and
when the fetch succeeds it delivers exactly the clip's own source bytes. -/
theorem c4_single_clip_direct_copy :
    ∀ (b : EngineBehavior) (c : Clip),
      (exportVideo b [c]).2.1 = [] ∧
      (b.fetchFail 0 = false →
        (exportVideo b [c]).1 = ExportResult.delivered (b.store c.src)) := by
  intro b c
  constructor
  · by_cases h : b.fetchFail 0 = true <;> simp [exportVideo, h]
  · intro h
    simp [exportVideo, h]

/-- C4 witness: the quiet run on a single clip delivers the stored source
bytes with an empty engine trace. -/
theorem c4_witness :
    quietBehavior.fetchFail 0 = false ∧
    (exportVideo quietBehavior [mkClip "A" 2]).2.1 = [] ∧
    (exportVideo quietBehavior [mkClip "A" 2]).1
      = ExportResult.delivered (quietBehavior.store (mkClip "A" 2).src) := by
  exact ⟨rfl, (c4_single_clip_direct_copy quietBehavior (mkClip "A" 2)).1,
    (c4_single_clip_direct_copy quietBehavior (mkClip "A" 2)).2 rfl⟩

/-- Recognizes the engine delete operation. -/
def isDeleteOp : EngineOp → Bool
  | EngineOp.deleteFile _ => true
  | _ => false

/-- A run in which the first normalize `exec` throws. -/
def failNormBehavior : EngineBehavior :=
  { store := fun _ => [7], fetchFail := fun _ => false,
    normFail := fun i => i == 0, normEvents := fun _ => [],
    concatFail := false, concatEvents := [], readFail := false,
    outputBytes := [], delFail := fun _ => false }

/-- C6 counterexample: when a step fails (here the first normalize of a
2-clip export), the export fails and the engine trace contains no delete
operation at all — cleanup is not attempted on failure, contradicting the
claim that removal is attempted whether the export succeeds or fails. -/
theorem c6_counterexample :
    (exportVideo failNormBehavior [mkClip "A" 1, mkClip "B" 1]).1
      = ExportResult.failed ∧
    ((exportVideo failNormBehavior [mkClip "A" 1, mkClip "B" 1]).2.1).all
      (fun op => !(isDeleteOp op)) = true := by
  constructor <;> rfl

/-- C6 amended: cleanup is attempted only on the success path. When every
step succeeds, the export delivers its output no matter which deletions
fail (cleanup failures are swallowed and never change the primary result),
and when no deletion fails the trace attempts removal of every per-clip
input file, every normalized output, the manifest and the output file. -/
theorem c6_cleanup_attempted_on_success :
    ∀ (b : EngineBehavior) (clips : List Clip),
      (∀ i, b.fetchFail i = false) → (∀ i, b.normFail i = false) →
      b.concatFail = false → b.readFail = false →
      (concatenateVideos b clips).1 = some b.outputBytes ∧
      ((∀ s, b.delFail s = false) →
        (∀ i, i < clips.length →
          EngineOp.deleteFile (inputName i) ∈ (concatenateVideos b clips).2.1 ∧
          EngineOp.deleteFile (tempName i) ∈ (concatenateVideos b clips).2.1) ∧
        EngineOp.deleteFile "concat.txt" ∈ (concatenateVideos b clips).2.1 ∧
        EngineOp.deleteFile "output.mp4" ∈ (concatenateVideos b clips).2.1) := by
  intro b clips hf hn hc hr
  rw [concatenateVideos_ok b clips hf hn hc hr]
  refine ⟨rfl, ?_⟩
  intro hdel
  rw [cleanupLoop_ok b hdel]
  have hfinal : finalCleanup b
      = [EngineOp.deleteFile "concat.txt", EngineOp.deleteFile "output.mp4"] := by
    rw [finalCleanup, if_neg (by simp [hdel])]
  refine ⟨?_, ?_, ?_⟩
  · intro i hi
    have hiRange : i ∈ List.range clips.length := List.mem_range.mpr hi
    constructor
    · have hmem : EngineOp.deleteFile (inputName i)
          ∈ (List.range clips.length).flatMap (fun j =>
              [EngineOp.deleteFile (inputName j), EngineOp.deleteFile (tempName j)]) :=
        List.mem_flatMap.mpr ⟨i, hiRange, by simp⟩
      simp [List.mem_append, hmem]
    · have hmem : EngineOp.deleteFile (tempName i)
          ∈ (List.range clips.length).flatMap (fun j =>
              [EngineOp.deleteFile (inputName j), EngineOp.deleteFile (tempName j)]) :=
        List.mem_flatMap.mpr ⟨i, hiRange, by simp⟩
      simp [List.mem_append, hmem]
  · simp [List.mem_append, hfinal]
  · simp [List.mem_append, hfinal]

/-- C6 witness: a fully successful quiet 2-clip export delivers its output
and its trace attempts every removal. -/
theorem c6_witness :
    (concatenateVideos quietBehavior [mkClip "A" 1, mkClip "B" 1]).1
      = some quietBehavior.outputBytes ∧
    (EngineOp.deleteFile (inputName 0)
        ∈ (concatenateVideos quietBehavior [mkClip "A" 1, mkClip "B" 1]).2.1 ∧
      EngineOp.deleteFile (tempName 0)
        ∈ (concatenateVideos quietBehavior [mkClip "A" 1, mkClip "B" 1]).2.1) ∧
    EngineOp.deleteFile "concat.txt"
      ∈ (concatenateVideos quietBehavior [mkClip "A" 1, mkClip "B" 1]).2.1 ∧
    EngineOp.deleteFile "output.mp4"
      ∈ (concatenateVideos quietBehavior [mkClip "A" 1, mkClip "B" 1]).2.1 := by
  have h := c6_cleanup_attempted_on_success quietBehavior [mkClip "A" 1, mkClip "B" 1]
    (fun _ => rfl) (fun _ => rfl) rfl rfl
  have h2 := h.2 (fun _ => rfl)
  exact ⟨h.1, h2.1 0 (by norm_num), h2.2.1, h2.2.2⟩

/-- C9: the concat manifest has exactly one line per clip of the merged
sequence, line `i` referencing `temp{i}.mp4`; the manifest depends only on
the clip count (so its order is the sequence order no matter how the
fetch/normalize steps were scheduled); and in every run whose fetch and
normalize steps succeed, the trace writes `input{i}.mp4` with the bytes of
the i-th clip, normalizes it to `temp{i}.mp4`, and writes the manifest
text. -/
theorem c9_manifest_order :
    (∀ n : Nat, (concatLines n).length = n ∧
      ∀ i, i < n → (concatLines n)[i]? = some (manifestLine i)) ∧
    (∀ (b : EngineBehavior) (clips : List Clip),
      (∀ i, b.fetchFail i = false) → (∀ i, b.normFail i = false) →
      b.concatFail = false → b.readFail = false →
      EngineOp.writeFile "concat.txt" (FileContent.text (concatListStr clips.length))
          ∈ (concatenateVideos b clips).2.1 ∧
      ∀ (i : Nat) (hi : i < clips.length),
        EngineOp.execNormalize (inputName i) (tempName i)
            ∈ (concatenateVideos b clips).2.1 ∧
        EngineOp.writeFile (inputName i)
            (FileContent.bytes (b.store ((clips.get ⟨i, hi⟩).src)))
          ∈ (concatenateVideos b clips).2.1) := by
  constructor
  · intro n
    refine ⟨by simp [concatLines], ?_⟩
    intro i hi
    simp [concatLines, List.getElem?_map, List.getElem?_range hi]
  · intro b clips hf hn hc hr
    rw [concatenateVideos_ok b clips hf hn hc hr]
    constructor
    · simp [List.mem_append]
    · intro i hi
      constructor
      · have hmem : EngineOp.execNormalize (inputName i) (tempName i)
            ∈ (List.range clips.length).map
                (fun j => EngineOp.execNormalize (inputName j) (tempName j)) :=
          List.mem_map_of_mem _ (List.mem_range.mpr hi)
        simp [List.mem_append, hmem]
      · have hpair : (i, clips.get ⟨i, hi⟩) ∈ clips.enum := by
          rw [List.mem_iff_getElem?]
          exact ⟨i, by simp [List.getElem?_enum, List.getElem?_eq_getElem hi]⟩
        have hmem : EngineOp.writeFile (inputName i)
            (FileContent.bytes (b.store ((clips.get ⟨i, hi⟩).src)))
            ∈ clips.enum.map (fun p => EngineOp.writeFile (inputName p.1)
                (FileContent.bytes (b.store p.2.src))) :=
          List.mem_map_of_mem _ hpair
        exact List.mem_append_left _ (List.mem_append_left _
          (List.mem_append_left _ (List.mem_append_left _ hmem)))

/-- C9 witness: the quiet 2-clip run writes the 2-line manifest and the
per-clip inputs and normalized outputs in order. -/
theorem c9_witness :
    ((concatLines 2).length = 2 ∧ (concatLines 2)[1]? = some (manifestLine 1)) ∧
    EngineOp.writeFile "concat.txt" (FileContent.text (concatListStr 2))
      ∈ (concatenateVideos quietBehavior [mkClip "A" 1, mkClip "B" 1]).2.1 ∧
    EngineOp.execNormalize (inputName 1) (tempName 1)
      ∈ (concatenateVideos quietBehavior [mkClip "A" 1, mkClip "B" 1]).2.1 := by
  have h1 := c9_manifest_order.1 2
  have h2 := c9_manifest_order.2 quietBehavior [mkClip "A" 1, mkClip "B" 1]
    (fun _ => rfl) (fun _ => rfl) rfl rfl
  exact ⟨⟨h1.1, h1.2 1 (by norm_num)⟩, h2.1, (h2.2 1 (by norm_num)).1⟩

theorem jsRound_nonneg {q : ℚ} (h : 0 ≤ q) : 0 ≤ jsRound q := by
  rw [jsRound]
  refine Int.le_floor.mpr ?_
  rw [Int.cast_zero]
  linarith

theorem jsRound_le {q : ℚ} {m : ℤ} (h : q < (m : ℚ) + 1/2) : jsRound q ≤ m := by
  rw [jsRound]
  refine Int.floor_le_iff.mpr ?_
  linarith

theorem jsRound_mono {q r : ℚ} (h : q ≤ r) : jsRound q ≤ jsRound r :=
  Int.floor_le_floor (by linarith)

/-- The fetch-phase progress value `round((i+1)/n*20)`. -/
def fetchProg (n i : Nat) : ℤ := jsRound (((i : ℚ) + 1) / (n : ℚ) * 20)

/-- The normalize-phase progress value `25 + round((i+1)/n*50)`. -/
def normProg (n i : Nat) : ℤ := 25 + jsRound (((i : ℚ) + 1) / (n : ℚ) * 50)

theorem fetchProg_bounds (n i : Nat) (hi : i < n) :
    0 ≤ fetchProg n i ∧ fetchProg n i ≤ 20 := by
  have hn : (0 : ℚ) < n := by
    exact_mod_cast show 0 < n by omega
  have hfrac1 : ((i : ℚ) + 1) / (n : ℚ) ≤ 1 := by
    rw [div_le_one hn]
    have : (i : ℚ) + 1 ≤ n := by exact_mod_cast Nat.succ_le_of_lt hi
    linarith
  have hfrac0 : 0 ≤ ((i : ℚ) + 1) / (n : ℚ) := by positivity
  constructor
  · exact jsRound_nonneg (by nlinarith)
  · exact jsRound_le (by nlinarith)

theorem fetchProg_mono (n i : Nat) (h : i + 1 < n) :
    fetchProg n i ≤ fetchProg n (i + 1) := by
  have hn : (0 : ℚ) < n := by
    exact_mod_cast show 0 < n by omega
  apply jsRound_mono
  gcongr
  linarith

theorem normProg_bounds (n i : Nat) (hi : i < n) :
    25 ≤ normProg n i ∧ normProg n i ≤ 75 := by
  have hn : (0 : ℚ) < n := by
    exact_mod_cast show 0 < n by omega
  have hfrac1 : ((i : ℚ) + 1) / (n : ℚ) ≤ 1 := by
    rw [div_le_one hn]
    have : (i : ℚ) + 1 ≤ n := by exact_mod_cast Nat.succ_le_of_lt hi
    linarith
  have hfrac0 : 0 ≤ ((i : ℚ) + 1) / (n : ℚ) := by positivity
  constructor
  · have := jsRound_nonneg (q := ((i : ℚ) + 1) / (n : ℚ) * 50) (by nlinarith)
    rw [normProg]
    omega
  · have : jsRound (((i : ℚ) + 1) / (n : ℚ) * 50) ≤ 50 := jsRound_le (by nlinarith)
    rw [normProg]
    omega

theorem normProg_mono (n i : Nat) (h : i + 1 < n) :
    normProg n i ≤ normProg n (i + 1) := by
  have hn : (0 : ℚ) < n := by
    exact_mod_cast show 0 < n by omega
  have : jsRound (((i : ℚ) + 1) / (n : ℚ) * 50)
      ≤ jsRound ((((i + 1 : Nat) : ℚ) + 1) / (n : ℚ) * 50) := by
    apply jsRound_mono
    gcongr
    linarith
  rw [normProg, normProg]
  omega

theorem chain'_le_append_all {l₁ l₂ : List ℤ}
    (h1 : List.Chain' (· ≤ ·) l₁) (h2 : List.Chain' (· ≤ ·) l₂)
    (hcross : ∀ x ∈ l₁, ∀ y ∈ l₂, x ≤ y) :
    List.Chain' (· ≤ ·) (l₁ ++ l₂) := by
  rw [List.chain'_append]
  refine ⟨h1, h2, ?_⟩
  intro x hx y hy
  have hx' : x ∈ l₁ := by
    obtain ⟨h, rfl⟩ := List.mem_getLast?_eq_getLast hx
    exact List.getLast_mem h
  have hy' : y ∈ l₂ := by
    rw [List.eq_cons_of_mem_head? hy]
    exact List.mem_cons_self _ _
  exact hcross x hx' y hy'

theorem chain'_le_map_range (f : Nat → ℤ) (n : Nat)
    (hmono : ∀ i, i + 1 < n → f i ≤ f (i + 1)) :
    List.Chain' (· ≤ ·) ((List.range n).map f) := by
  rw [List.chain'_map]
  cases n with
  | zero => simp
  | succ m =>
    rw [List.chain'_range_succ]
    intro k hk
    exact hmono k (by omega)

theorem flatMap_single_eq_map {α : Type} (f : Nat → α) (l : List Nat) :
    (l.flatMap fun i => [f i]) = l.map f := by
  induction l with
  | nil => rfl
  | cons i rest ih =>
    rw [List.flatMap_cons, ih]
    rfl

/-- The progress trace of a fully successful multi-clip export during which
the engine emits no progress events. -/
def quietTrace (n : Nat) : List ℤ :=
  [0, 0] ++ ((List.range n).map (fetchProg n)
    ++ ([25] ++ ((List.range n).map (normProg n) ++ [80, 90, 95, 100])))

theorem exportVideo_trace_quiet (b : EngineBehavior) (clips : List Clip)
    (hf : ∀ i, b.fetchFail i = false) (hn : ∀ i, b.normFail i = false)
    (hev : ∀ i, b.normEvents i = []) (hc : b.concatFail = false)
    (hcev : b.concatEvents = []) (hr : b.readFail = false)
    (hlen : 2 ≤ clips.length) :
    (exportVideo b clips).2.2 = quietTrace clips.length := by
  match clips, hlen with
  | c1 :: c2 :: t2, _ =>
    have hok := concatenateVideos_ok b (c1 :: c2 :: t2) hf hn hc hr
    have hfetch : (c1 :: c2 :: t2).enum.map
        (fun p => jsRound (((p.1 : ℚ) + 1) / (((c1 :: c2 :: t2).length : ℚ)) * 20))
        = (List.range (c1 :: c2 :: t2).length).map (fetchProg (c1 :: c2 :: t2).length) := by
      rw [← List.enum_map_fst (c1 :: c2 :: t2), List.map_map]
      rfl
    have hnorm : (List.range (c1 :: c2 :: t2).length).flatMap
        (fun i => (b.normEvents i).map (fun e => jsRound (e * 100))
          ++ [25 + jsRound (((i : ℚ) + 1) / (((c1 :: c2 :: t2).length : ℚ)) * 50)])
        = (List.range (c1 :: c2 :: t2).length).map (normProg (c1 :: c2 :: t2).length) := by
      rw [← flatMap_single_eq_map]
      apply congrArg
      funext i
      rw [hev i]
      rfl
    simp only [exportVideo, hok, hfetch, hnorm, hcev]
    simp [quietTrace]

theorem chain'_quietTrace (n : Nat) :
    List.Chain' (· ≤ ·) (quietTrace n) ∧ (quietTrace n).getLast? = some 100 := by
  have hA : ∀ x ∈ (List.range n).map (fetchProg n), 0 ≤ x ∧ x ≤ 20 := by
    intro x hx
    obtain ⟨i, hi, rfl⟩ := List.mem_map.mp hx
    exact fetchProg_bounds n i (List.mem_range.mp hi)
  have hB : ∀ x ∈ (List.range n).map (normProg n), 25 ≤ x ∧ x ≤ 75 := by
    intro x hx
    obtain ⟨i, hi, rfl⟩ := List.mem_map.mp hx
    exact normProg_bounds n i (List.mem_range.mp hi)
  have hrear : ∀ y ∈ ([80, 90, 95, 100] : List ℤ), 80 ≤ y := by
    intro y hy
    rcases List.mem_cons.mp hy with rfl | hy
    · norm_num
    rcases List.mem_cons.mp hy with rfl | hy
    · norm_num
    rcases List.mem_cons.mp hy with rfl | hy
    · norm_num
    rcases List.mem_cons.mp hy with rfl | hy
    · norm_num
    · cases hy
  have htail2 : ∀ y ∈ (List.range n).map (normProg n) ++ [80, 90, 95, 100],
      (25 : ℤ) ≤ y := by
    intro y hy
    rcases List.mem_append.mp hy with h | h
    · exact (hB y h).1
    · linarith [hrear y h]
  have htail1 : ∀ y ∈ ([25]
      ++ ((List.range n).map (normProg n) ++ [80, 90, 95, 100])), (25 : ℤ) ≤ y := by
    intro y hy
    rcases List.mem_append.mp hy with h | h
    · rcases List.mem_singleton.mp h with rfl
      norm_num
    · exact htail2 y h
  have htail0 : ∀ y ∈ ((List.range n).map (fetchProg n)
      ++ ([25] ++ ((List.range n).map (normProg n) ++ [80, 90, 95, 100]))),
      (0 : ℤ) ≤ y := by
    intro y hy
    rcases List.mem_append.mp hy with h | h
    · exact (hA y h).1
    · linarith [htail1 y h]
  constructor
  · rw [quietTrace]
    refine chain'_le_append_all (by norm_num [List.chain'_cons]) ?_ ?_
    · refine chain'_le_append_all
        (chain'_le_map_range _ n (fun i h => fetchProg_mono n i h)) ?_ ?_
      · refine chain'_le_append_all (by norm_num [List.chain'_cons]) ?_ ?_
        · refine chain'_le_append_all
            (chain'_le_map_range _ n (fun i h => normProg_mono n i h))
            (by norm_num [List.chain'_cons]) ?_
          intro x hx y hy
          linarith [(hB x hx).2, hrear y hy]
        · intro x hx y hy
          rcases List.mem_singleton.mp hx with rfl
          exact htail2 y hy
      · intro x hx y hy
        linarith [(hA x hx).2, htail1 y hy]
    · intro x hx y hy
      have hx0 : x = 0 := by
        rcases List.mem_cons.mp hx with rfl | hx
        · rfl
        rcases List.mem_cons.mp hx with rfl | hx
        · rfl
        · cases hx
      rw [hx0]
      exact htail0 y hy
  · rw [quietTrace, List.getLast?_append_of_ne_nil _ (by simp),
      List.getLast?_append_of_ne_nil _ (by simp),
      List.getLast?_append_of_ne_nil _ (by simp),
      List.getLast?_append_of_ne_nil _ (by simp)]
    rfl

/-- C5 amended: for a successful export during which the engine emits no
progress events, the values passed to `setProgress` by the export code's
own phase updates form a non-decreasing sequence that ends at 100 (for a
single clip the sequence is 0, 50, 100). Engine-handler events are excluded:
they can break monotonicity, see the counterexample. -/
theorem c5_progress_monotone_without_engine_events :
    ∀ (b : EngineBehavior) (clips : List Clip),
      (∀ i, b.fetchFail i = false) → (∀ i, b.normFail i = false) →
      (∀ i, b.normEvents i = []) → b.concatFail = false →
      b.concatEvents = [] → b.readFail = false → 1 ≤ clips.length →
      List.Chain' (· ≤ ·) (exportVideo b clips).2.2 ∧
      ((exportVideo b clips).2.2).getLast? = some 100 := by
  intro b clips hf hn hev hc hcev hr hlen
  cases clips with
  | nil => simp at hlen
  | cons c1 t =>
    cases t with
    | nil =>
      have htr : (exportVideo b [c1]).2.2 = [0, 50, 100] := by
        simp [exportVideo, hf 0]
      rw [htr]
      exact ⟨by norm_num [List.chain'_cons], rfl⟩
    | cons c2 t2 =>
      have hlen2 : 2 ≤ (c1 :: c2 :: t2).length := by
        simp [List.length_cons]
      rw [exportVideo_trace_quiet b (c1 :: c2 :: t2) hf hn hev hc hcev hr hlen2]
      exact chain'_quietTrace _

/-- C5 witness: the quiet two-clip run satisfies all hypotheses, and its
progress trace is a non-decreasing sequence ending at 100. -/
theorem c5_witness :
    ((∀ i, quietBehavior.fetchFail i = false) ∧
      (∀ i, quietBehavior.normFail i = false) ∧
      (∀ i, quietBehavior.normEvents i = []) ∧
      quietBehavior.concatFail = false ∧ quietBehavior.concatEvents = [] ∧
      quietBehavior.readFail = false ∧
      1 ≤ ([mkClip "A" 1, mkClip "B" 1] : List Clip).length) ∧
    List.Chain' (· ≤ ·)
      (exportVideo quietBehavior [mkClip "A" 1, mkClip "B" 1]).2.2 ∧
    ((exportVideo quietBehavior [mkClip "A" 1, mkClip "B" 1]).2.2).getLast?
      = some 100 := by
  refine ⟨⟨fun _ => rfl, fun _ => rfl, fun _ => rfl, rfl, rfl, rfl, by norm_num⟩, ?_⟩
  exact c5_progress_monotone_without_engine_events quietBehavior
    [mkClip "A" 1, mkClip "B" 1] (fun _ => rfl) (fun _ => rfl) (fun _ => rfl)
    rfl rfl rfl (by norm_num)

/-- A run identical to the quiet one except that the engine emits a 10%
progress event during the first normalize `exec`, as the real engine does
at the start of every transcode. -/
def unevenEngine : EngineBehavior :=
  { store := fun _ => [7], fetchFail := fun _ => false, normFail := fun _ => false,
    normEvents := fun i => if i == 0 then [1/10] else [],
    concatFail := false, concatEvents := [], readFail := false,
    outputBytes := [], delFail := fun _ => false }

/-- C5 counterexample: in a successful 2-clip export during which the
engine reports fraction 0.1 at the start of the first normalize step, the
progress handler sets 10 right after the export code set 25, so the
observed `setProgress` sequence (engine events included) is not
non-decreasing: the claim as stated is false. -/
theorem c5_counterexample :
    ¬ List.Chain' (· ≤ ·)
      (exportVideo unevenEngine [mkClip "A" 1, mkClip "B" 1]).2.2 := by
  intro h
  have hok := concatenateVideos_ok unevenEngine [mkClip "A" 1, mkClip "B" 1]
    (fun _ => rfl) (fun _ => rfl) rfl rfl
  have htr : (exportVideo unevenEngine [mkClip "A" 1, mkClip "B" 1]).2.2
      = [0, 0, 10, 20, 25, 10, 50, 75, 80, 90, 95, 100] := by
    simp only [exportVideo, hok]
    norm_num [List.enum, List.enumFrom, List.range_succ, jsRound, unevenEngine, mkClip]
  rw [htr] at h
  norm_num [List.chain'_cons] at h
